import Mathlib

/-!
# Verification of the persona-builder transcript pipeline

Shallow embedding of the text-processing core of
`src/process_banciu_transcripts.py` and `src/fetch_banciu_videos.py`.

Text is modelled as `List Char`.  Python string primitives
(`str.split()`, `str.strip()`, `' '.join`, `re.sub` with the literal and
whitespace patterns the scripts use, `str.isdigit`, `int`, `urllib.parse`)
are modelled character by character on the ASCII-and-Romanian-letters
alphabet the scripts operate on; the Unicode generalities of CPython that
the scripts never exercise (non-ASCII digit classes, non-ASCII case
folding, multi-byte percent-escapes) are noted at each definition.
-/

/-- Text is a list of characters. -/
abbrev Str := List Char

/-- Python whitespace, the class `\s` and the set `str.split()` /
`str.strip()` break on (ASCII part). -/
def pyWs (c : Char) : Bool :=
  c == ' ' || c == '\t' || c == '\n' || c == '\r' || c == '\x0b' || c == '\x0c'

/-- Helper of `pyWords`: `acc` holds the characters of the current word,
reversed. -/
def wordsAux : Str → Str → List Str
  | [], acc => if acc = [] then [] else [acc.reverse]
  | c :: cs, acc =>
    if pyWs c then
      if acc = [] then wordsAux cs [] else acc.reverse :: wordsAux cs []
    else wordsAux cs (c :: acc)

/-- Models `s.split()`: split on runs of whitespace, discarding empty pieces. -/
def pyWords (s : Str) : List Str := wordsAux s []

/-- Models `' '.join(l)`. -/
def joinSp : List Str → Str
  | [] => []
  | [s] => s
  | s :: rest => s ++ ' ' :: joinSp rest

/-- Models `s.strip()`: drop leading and trailing whitespace. -/
def pyStrip (s : Str) : Str :=
  ((s.dropWhile pyWs).reverse.dropWhile pyWs).reverse

/-- Models `s.split(d)` for a one-character separator `d`, keeping empty pieces
(Python: `''.split(d) == ['']`). -/
def splitOnChar (d : Char) : Str → List Str
  | [] => [[]]
  | c :: cs =>
    if c == d then [] :: splitOnChar d cs
    else
      match splitOnChar d cs with
      | l :: ls => (c :: l) :: ls
      | [] => [[c]]

/-- Split at the first character satisfying `p`: `some (before, after)`
with the matching character dropped, or `none`. -/
def splitOnFirst (p : Char → Bool) : Str → Option (Str × Str)
  | [] => none
  | c :: cs =>
    if p c then some ([], cs)
    else
      match splitOnFirst p cs with
      | some (a, b) => some (c :: a, b)
      | none => none

/-- Models `pat in s` (substring test), as a boolean. -/
def containsSub (pat : Str) : Str → Bool
  | [] => pat.isEmpty
  | c :: cs => pat.isPrefixOf (c :: cs) || containsSub pat cs

/- ### The sentence splitter of `split_into_chunks` -/

/-- Sentence-terminal punctuation: the class `[.!?]`. -/
def sentEnd (c : Char) : Bool := c == '.' || c == '!' || c == '?'

/-- The uppercase class `[A-ZĂÂÎȘȚ]` of the sentence pattern. -/
def upperRo (c : Char) : Bool :=
  ('A' ≤ c && c ≤ 'Z') || c == 'Ă' || c == 'Â' || c == 'Î' || c == 'Ș' || c == 'Ț'

/-- First character is sentence-terminal punctuation. -/
def headSentEnd : Str → Bool
  | [] => false
  | p :: _ => sentEnd p

/-- Models `re.split(r'(?<=[.!?])\s+(?=[A-ZĂÂÎȘȚ])', text)`
(src/process_banciu_transcripts.py lines 266-267): cut after a
sentence-terminal character followed by a whitespace run and an uppercase
letter, the whitespace run being consumed.  One left-to-right pass:
`acc` is the current piece reversed, `ws` a pending whitespace run
reversed; on a non-whitespace character the pending run either completes
a split (piece emitted, run consumed) or flows into the piece. -/
def sentencesA : Str → Str → Str → List Str
  | [], ws, acc => [acc.reverse ++ ws.reverse]
  | c :: cs, ws, acc =>
    if pyWs c then sentencesA cs (c :: ws) acc
    else if ws ≠ [] ∧ headSentEnd acc ∧ upperRo c then
      acc.reverse :: sentencesA cs [] [c]
    else sentencesA cs [] (c :: (ws ++ acc))

/-- The sentence list the chunker iterates over. -/
def splitSentences (text : Str) : List Str := sentencesA text [] []

/- ### The chunker -/

/-- The sentence-accumulation loop of `split_into_chunks`
(src/process_banciu_transcripts.py lines 269-303), as a recursion over
the sentence list: `cur` is the loop's `current_chunk`, `cnt` its
`current_word_count`, and closed chunks are emitted in order at the head.
A close hands the new window `[seed, sentence]` with word count
`len(seed.split()) + sentence_word_count`, exactly as lines 282-297 do. -/
def chunkLoop (target overlap : Nat) : List Str → List Str → Nat → List Str
  | [], cur, _ => if cur = [] then [] else [joinSp cur]
  | s :: rest, cur, cnt =>
    let s1 := pyStrip s
    if s1 = [] then chunkLoop target overlap rest cur cnt
    else
      let swc := (pyWords s1).length
      if cnt + swc > target ∧ cur ≠ [] then
        if overlap > 0 then
          let allWords := pyWords (joinSp cur)
          let seed := joinSp (allWords.drop (allWords.length - overlap))
          joinSp cur ::
            chunkLoop target overlap rest [seed, s1] ((pyWords seed).length + swc)
        else
          joinSp cur :: chunkLoop target overlap rest [s1] swc
      else
        chunkLoop target overlap rest (cur ++ [s1]) (cnt + swc)

/-- Models `split_into_chunks(clean_text, target_word_count, overlap_words)`
(src/process_banciu_transcripts.py lines 248-303). -/
def split_into_chunks (clean_text : Str) (target_word_count : Nat := 1200)
    (overlap_words : Nat := 100) : List Str :=
  chunkLoop target_word_count overlap_words (splitSentences clean_text) [] 0

/-- The stripped, non-empty sentences the loop actually accumulates
(lines 273-276 strip each sentence and skip empty ones). -/
def cleanSents (ss : List Str) : List Str :=
  (ss.map pyStrip).filter (fun s => !s.isEmpty)

/- ### The overlap relation between consecutive chunks -/

/-- Relation between consecutive chunks for C3: the trailing
`overlap`-or-fewer words of `a` are the leading words of `b`. -/
def overlapRel (overlap : Nat) (a b : Str) : Prop :=
  (pyWords a).drop ((pyWords a).length - overlap) <+: pyWords b

/- ### Word-count bound on chunks -/

/-- The largest word count of a single stripped sentence of `text`. -/
def maxSentWords (text : Str) : Nat :=
  ((cleanSents (splitSentences text)).map (fun s => (pyWords s).length)).foldr max 0

/-- Input of the C1 counterexample: four sentences of six words each. -/
def c1txt : Str :=
  ("A b c d e f. G h i j k l. M n o p q r. S t u v w x.").toList

/- ### The transcript cleaner -/

/-- Models `re.sub(r' +', ' ', text)`: each maximal run of spaces becomes one
space.  Mode `true` means the run's single space is already emitted and
further spaces are dropped. -/
def collapseSpM : Bool → Str → Str
  | _, [] => []
  | true, c :: cs => if c = ' ' then collapseSpM true cs else c :: collapseSpM false cs
  | false, c :: cs =>
    if c = ' ' then ' ' :: collapseSpM true cs else c :: collapseSpM false cs

def collapseSp (s : Str) : Str := collapseSpM false s

/-- Models `re.sub(r'\n\n+', '\n\n', text)`: each maximal run of two or more
newlines becomes exactly two; a single newline is untouched.  Mode `true`
means the run's two newlines are already emitted and further newlines are
dropped. -/
def collapseNlM : Bool → Str → Str
  | _, [] => []
  | true, c :: cs => if c = '\n' then collapseNlM true cs else c :: collapseNlM false cs
  | false, [c] => [c]
  | false, c :: d :: cs2 =>
    if c = '\n' ∧ d = '\n' then '\n' :: '\n' :: collapseNlM true cs2
    else c :: collapseNlM false (d :: cs2)

def collapseNl (s : Str) : Str := collapseNlM false s

/-- Models `re.sub(pat, '', text)` for a literal pattern: leftmost non-overlapping
matches are removed and scanning resumes after each match (the replacement
is never rescanned).  `k` counts characters of a current match still to be
dropped. -/
def removeAllK (pat : Str) : Str → Nat → Str
  | [], _ => []
  | _ :: cs, k + 1 => removeAllK pat cs k
  | c :: cs, 0 =>
    if pat.isPrefixOf (c :: cs) ∧ pat ≠ [] then removeAllK pat cs (pat.length - 1)
    else c :: removeAllK pat cs 0

def removeAll (pat s : Str) : Str := removeAllK pat s 0

/-- The placeholder patterns of `clean_transcript_text`
(src/process_banciu_transcripts.py lines 228-232), in their order. -/
def placeholders : List Str :=
  ["[Music]".toList, "[Applause]".toList, "[Laughter]".toList,
   "[music]".toList, "[applause]".toList, "[laughter]".toList,
   "[MUSIC]".toList, "[APPLAUSE]".toList, "[LAUGHTER]".toList]

/-- Models `clean_transcript_text(raw_text)`
(src/process_banciu_transcripts.py lines 215-245): remove the placeholder
tokens one pattern after the other, collapse space runs, collapse newline
runs, strip. -/
def clean_transcript_text (raw_text : Str) : Str :=
  pyStrip (collapseNl (collapseSp (placeholders.foldl (fun t p => removeAll p t) raw_text)))

/-- Both ends of the string are free of whitespace. -/
def noEdgeWs (s : Str) : Bool :=
  (match s.head? with
   | none => true
   | some c => !pyWs c)
  && (match s.getLast? with
      | none => true
      | some c => !pyWs c)

/- ### Concrete inputs of the counterexamples and witnesses -/

/-- Input showing that marker removal can create a new marker. -/
def c5txt : Str := ("[Mu[Music]sic]").toList

/-- Input showing that `clean_transcript_text` is not idempotent. -/
def c4txt : Str := ("[Mu[Music]sic]").toList

/-- Input of the C3 witness: three 3-word sentences, target 3, overlap 2. -/
def c3txt : Str := ("A b c. D e f. G h i.").toList

/- ### The subtitle parser -/

/-- Models `line.isdigit()`: non-empty and all characters decimal digits
(ASCII scope; the sequence-number lines of an SRT file are ASCII). -/
def pyIsDigit (l : Str) : Bool := !l.isEmpty && l.all Char.isDigit

/-- The discard test of `parse_subtitles`
(src/process_banciu_transcripts.py line 184):
`not line or line.isdigit() or '-->' in line`. -/
def skipLine (l : Str) : Bool :=
  l.isEmpty || pyIsDigit l || containsSub ("-->").toList l

/-- The loop of `parse_subtitles` (lines 181-186): strip each line, skip
blanks, sequence numbers and time-range lines, keep the rest in order. -/
def collectTextLines : List Str → List Str
  | [] => []
  | l :: ls =>
    if skipLine (pyStrip l) then collectTextLines ls
    else pyStrip l :: collectTextLines ls

/-- Models `parse_subtitles` (src/process_banciu_transcripts.py lines 163-188),
its pure part: file content in, `' '.join(text_lines)` out. -/
def parse_subtitles (content : Str) : Str :=
  joinSp (collectTextLines (splitOnChar '\n' content))

/- ### The Romanian date parser (src/fetch_banciu_videos.py) -/

/-- Models `str.lower()` (ASCII scope; the month table and typo key are ASCII,
and no non-ASCII character lowercases onto their letters). -/
def lowerStr (s : Str) : Str := s.map Char.toLower

/-- Digit run with single underscores between digits, the tail grammar of
a Python `int` literal string (ASCII digits). -/
def digitsTail : Nat → Str → Option Nat
  | acc, [] => some acc
  | acc, '_' :: c :: cs =>
    if c.isDigit then digitsTail (10 * acc + (c.toNat - 48)) cs else none
  | acc, c :: cs =>
    if c.isDigit then digitsTail (10 * acc + (c.toNat - 48)) cs else none

def parseDigits : Str → Option Nat
  | [] => none
  | c :: cs => if c.isDigit then digitsTail (c.toNat - 48) cs else none

/-- Models `int(s)` on a whitespace-free token: optional sign, then digits with
single underscores between them; everything else raises `ValueError`
(modelled as `none`). -/
def pyInt : Str → Option Int
  | '+' :: rest => (parseDigits rest).map (fun n => (n : Int))
  | '-' :: rest => (parseDigits rest).map (fun n => -(n : Int))
  | s => (parseDigits s).map (fun n => (n : Int))

/-- The ROMANIAN_MONTHS table (src/fetch_banciu_videos.py lines 33-46). -/
def ROMANIAN_MONTHS : List (Str × Nat) :=
  [(("ianuarie").toList, 1), (("februarie").toList, 2), (("martie").toList, 3),
   (("aprilie").toList, 4), (("mai").toList, 5), (("iunie").toList, 6),
   (("iulie").toList, 7), (("august").toList, 8), (("septembrie").toList, 9),
   (("octombrie").toList, 10), (("noiembrie").toList, 11), (("decembrie").toList, 12)]

def monthLookup (m : Str) : Option Nat :=
  (ROMANIAN_MONTHS.find? (fun p => p.1 == m)).map Prod.snd

/-- The fixed typo correction (lines 70-72): `"ocrombrie" -> "octombrie"`. -/
def fixTypo (m : Str) : Str :=
  if m = ("ocrombrie").toList then ("octombrie").toList else m

def isLeap (y : Int) : Bool := y % 4 == 0 && (y % 100 != 0 || y % 400 == 0)

def daysInMonth (y : Int) (m : Nat) : Nat :=
  if m = 2 then (if isLeap y then 29 else 28)
  else if m = 4 ∨ m = 6 ∨ m = 9 ∨ m = 11 then 30
  else 31

/-- The validity check the `datetime(year, month, day)` constructor
performs: `MINYEAR = 1 ≤ year ≤ MAXYEAR = 9999` and a day within the
month (proleptic Gregorian leap rule); anything else raises `ValueError`. -/
def validPyDate (y : Int) (m : Nat) (d : Int) : Prop :=
  1 ≤ y ∧ y ≤ 9999 ∧ 1 ≤ m ∧ m ≤ 12 ∧ 1 ≤ d ∧ d ≤ (daysInMonth y m : Int)

instance (y : Int) (m : Nat) (d : Int) : Decidable (validPyDate y m d) := by
  unfold validPyDate
  infer_instance

def digitChar (n : Nat) : Char := Char.ofNat (48 + n % 10)

def pad2 (n : Nat) : Str := [digitChar (n / 10), digitChar n]

def pad4 (n : Nat) : Str :=
  [digitChar (n / 1000), digitChar (n / 100), digitChar (n / 10), digitChar n]

/-- Models `date_obj.strftime('%Y-%m-%d')` on the constructor-validated range:
four-digit zero-padded year, two-digit zero-padded month and day (the
zero-padded `%Y` of the CPython documentation). -/
def fmtDate (y : Int) (m d : Nat) : Str :=
  pad4 y.toNat ++ '-' :: pad2 m ++ '-' :: pad2 d

/-- Models `parse_romanian_date(date_str, year)`
(src/fetch_banciu_videos.py lines 49-86): split into exactly two tokens,
parse the day with `int`, lowercase the month, apply the typo fix, look
the month up, build the date; any failure returns `None`. -/
def parse_romanian_date (date_str : Str) (year : Int) : Option Str :=
  match pyWords (pyStrip date_str) with
  | [day_str, month_str] =>
    match pyInt day_str with
    | none => none
    | some day =>
      match monthLookup (fixTypo (lowerStr month_str)) with
      | none => none
      | some month =>
        if validPyDate year month day then some (fmtDate year month day.toNat)
        else none
  | _ => none

/-- The success conditions C7 names: exactly two tokens, a numeric day,
a month name recognized case-insensitively in the twelve-entry table
after the typo correction, and a valid calendar day/month/year. -/
def dateConds (s : Str) (y : Int) : Prop :=
  ∃ d m day mo, pyWords (pyStrip s) = [d, m] ∧ pyInt d = some day
    ∧ monthLookup (fixTypo (lowerStr m)) = some mo ∧ validPyDate y mo day

/- ### URL parsing (`extract_video_id`) -/

/-- The characters CPython allows inside a URL scheme. -/
def schemeChar (c : Char) : Bool :=
  c.isAlpha || c.isDigit || c == '+' || c == '-' || c == '.'

def headIsAlpha : Str → Bool
  | [] => false
  | c :: _ => c.isAlpha

/-- Models `urlsplit`'s scheme step: a leading `<letters>:` with valid scheme
characters is split off and lowercased, anything else leaves the URL
untouched with an empty scheme. -/
def splitScheme (url : Str) : Str × Str :=
  match splitOnFirst (fun c => c == ':') url with
  | some (pre, post) =>
    if pre ≠ [] ∧ headIsAlpha pre ∧ pre.all schemeChar then (lowerStr pre, post)
    else ([], url)
  | none => ([], url)

def netChar (c : Char) : Bool := !(c == '/' || c == '?' || c == '#')

/-- Models `urlsplit`'s netloc step: after a leading `//`, the netloc runs to the
first `/`, `?` or `#`. -/
def splitNetloc : Str → Str × Str
  | '/' :: '/' :: r => (r.takeWhile netChar, r.dropWhile netChar)
  | rest => ([], rest)

def splitFragment (s : Str) : Str × Str :=
  match splitOnFirst (fun c => c == '#') s with
  | some (a, b) => (a, b)
  | none => (s, [])

def splitQuery (s : Str) : Str × Str :=
  match splitOnFirst (fun c => c == '?') s with
  | some (a, b) => (a, b)
  | none => (s, [])

structure UrlParts where
  scheme : Str
  netloc : Str
  path : Str
  query : Str
  fragment : Str

/-- Models `urllib.parse.urlsplit` for absolute URLs, in CPython's order: scheme,
then `//netloc`, then the fragment split at the first `#`, then the query
split at the first `?`; the leftover is the path. -/
def pyUrlsplit (url : Str) : UrlParts :=
  let sp := splitScheme url
  let nl := splitNetloc sp.2
  let fr := splitFragment nl.2
  let qu := splitQuery fr.1
  ⟨sp.1, nl.1, qu.1, qu.2, fr.2⟩

/-- Models `parsed.hostname`: the netloc after the last `@`, up to the first `:`
(no IPv6 bracket handling — the scripts never build such URLs),
lowercased; `None` when empty. -/
def pyHostname (netloc : Str) : Option Str :=
  let hostinfo := (netloc.reverse.takeWhile (fun c => !(c == '@'))).reverse
  let host := hostinfo.takeWhile (fun c => !(c == ':'))
  if host.isEmpty then none else some (lowerStr host)

def pctVal (c : Char) : Option Nat :=
  if '0' ≤ c ∧ c ≤ '9' then some (c.toNat - 48)
  else if 'a' ≤ c ∧ c ≤ 'f' then some (c.toNat - 87)
  else if 'A' ≤ c ∧ c ≤ 'F' then some (c.toNat - 55)
  else none

/-- Models `urllib.parse.unquote_plus`: `+` becomes a space and `%hh` decodes to
one character (single-byte escapes; the multi-byte UTF-8 recombination of
CPython is outside the characters video identifiers use). -/
def unquotePlus : Str → Str
  | [] => []
  | c :: h1 :: h2 :: cs2 =>
    if c = '+' then ' ' :: unquotePlus (h1 :: h2 :: cs2)
    else if c = '%' then
      match pctVal h1, pctVal h2 with
      | some a, some b => Char.ofNat (16 * a + b) :: unquotePlus cs2
      | _, _ => c :: unquotePlus (h1 :: h2 :: cs2)
    else c :: unquotePlus (h1 :: h2 :: cs2)
  | c :: cs =>
    if c = '+' then ' ' :: unquotePlus cs else c :: unquotePlus cs

/-- Models `urllib.parse.parse_qsl` with the default options: split on `&`, skip
empty items, skip items without `=` or with an empty value, unquote both
sides. -/
def parse_qsl (qs : Str) : List (Str × Str) :=
  (splitOnChar '&' qs).filterMap fun nv =>
    if nv.isEmpty then none
    else
      match splitOnFirst (fun c => c == '=') nv with
      | none => none
      | some (n, v) =>
        if v.isEmpty then none else some (unquotePlus n, unquotePlus v)

/-- Models `parse_qs(query).get(key, [None])[0]`: the first value bound to `key`. -/
def firstQueryVal (key : Str) (qs : Str) : Option Str :=
  ((parse_qsl qs).find? (fun p => p.1 == key)).map Prod.snd

/-- Models `extract_video_id(url)`
(src/process_banciu_transcripts.py lines 62-88). -/
def extract_video_id (url : Str) : Option Str :=
  let parsed := pyUrlsplit url
  if pyHostname parsed.netloc = some (("youtu.be").toList) then
    some (parsed.path.drop 1)
  else if pyHostname parsed.netloc = some (("www.youtube.com").toList)
      ∨ pyHostname parsed.netloc = some (("youtube.com").toList) then
    if parsed.path = ("/watch").toList then firstQueryVal (("v").toList) parsed.query
    else if ("/embed/").toList <+: parsed.path then
      (splitOnChar '/' parsed.path).get? 2
    else if ("/v/").toList <+: parsed.path then
      (splitOnChar '/' parsed.path).get? 2
    else none
  else none

/- ### Video identifier characters -/

/-- Characters a video identifier is made of. -/
def goodIdChar (c : Char) : Bool := c.isAlphanum || c == '-' || c == '_'

/- ## Theorems -/

/- ### Generic substring lemmas -/

theorem sub_trans {p q s : Str} (h1 : p <:+: q) (h2 : q <:+: s) : p <:+: s :=
  h1.trans h2

theorem sub_of_suffix {u s : Str} (h : u <:+ s) : u <:+: s :=
  h.isInfix

theorem sub_of_pref {u s : Str} (h : u <+: s) : u <:+: s :=
  h.isInfix

theorem sub_cons {p s : Str} {c : Char} (h : p <:+: c :: s) :
    p <+: c :: s ∨ p <:+: s := by
  obtain ⟨u, v, huv⟩ := h
  cases u with
  | nil => exact Or.inl ⟨v, by simpa using huv⟩
  | cons a u =>
    cases huv
    exact Or.inr ⟨u, v, rfl⟩

theorem containsSub_iff (pat : Str) : ∀ s : Str, containsSub pat s = true ↔ pat <:+: s := by
  intro s
  induction s with
  | nil =>
    simp only [containsSub, List.isEmpty_iff]
    constructor
    · rintro rfl; exact ⟨[], [], rfl⟩
    · rintro ⟨u, v, huv⟩
      have h0 := congrArg List.length huv
      simp at h0
      exact h0.2.1
  | cons c cs ih =>
    simp only [containsSub, Bool.or_eq_true, List.isPrefixOf_iff_prefix, ih]
    constructor
    · rintro (h | h)
      · exact sub_of_pref h
      · exact sub_trans h (sub_of_suffix ⟨[c], rfl⟩)
    · intro h
      rcases sub_cons h with h | h
      · exact Or.inl h
      · exact Or.inr h

/- ### Facts about `pyWords` and `joinSp` -/

theorem wordsAux_append_sp (b : Str) :
    ∀ (a acc : Str), wordsAux (a ++ ' ' :: b) acc = wordsAux a acc ++ wordsAux b []
  | [], acc => by
    by_cases h : acc = [] <;> simp [wordsAux, pyWs, h]
  | c :: a, acc => by
    by_cases hw : pyWs c
    · by_cases h : acc = [] <;>
        simp [wordsAux, hw, h, wordsAux_append_sp b a]
    · simp [wordsAux, hw, wordsAux_append_sp b a]

theorem pyWords_append_sp (a b : Str) :
    pyWords (a ++ ' ' :: b) = pyWords a ++ pyWords b := by
  simp [pyWords, wordsAux_append_sp]

theorem pyWords_joinSp : ∀ l : List Str, pyWords (joinSp l) = (l.map pyWords).flatten
  | [] => rfl
  | [s] => by simp [joinSp]
  | s :: t :: rest => by
    have ih := pyWords_joinSp (t :: rest)
    simp only [joinSp, pyWords_append_sp, List.map_cons, List.flatten_cons, ih]

theorem wordsAux_mem : ∀ (s acc w : Str), (∀ c ∈ acc, pyWs c = false) →
    w ∈ wordsAux s acc → w ≠ [] ∧ ∀ c ∈ w, pyWs c = false := by
  intro s
  induction s with
  | nil =>
    intro acc w hacc hw
    by_cases h : acc = [] <;> simp [wordsAux, h] at hw
    subst hw
    constructor
    · simpa using h
    · intro c hc
      exact hacc c (by simpa using hc)
  | cons c cs ih =>
    intro acc w hacc hw
    by_cases hws : pyWs c
    · by_cases h : acc = []
      · exact ih [] w (by simp) (by simpa [wordsAux, hws, h] using hw)
      · simp only [wordsAux, hws, if_true, h, if_false, List.mem_cons] at hw
        rcases hw with rfl | hw
        · refine ⟨by simpa using h, ?_⟩
          intro x hx
          exact hacc x (by simpa using hx)
        · exact ih [] w (by simp) hw
    · refine ih (c :: acc) w ?_ (by simpa [wordsAux, hws] using hw)
      intro x hx
      rcases List.mem_cons.mp hx with rfl | hx
      · simpa using hws
      · exact hacc x hx

theorem wordsAux_all_nonWs : ∀ (s acc : Str), (∀ c ∈ s, pyWs c = false) →
    (acc = [] → s ≠ []) → wordsAux s acc = [acc.reverse ++ s] := by
  intro s
  induction s with
  | nil =>
    intro acc _ hne
    have : acc ≠ [] := fun h => (hne h) rfl
    simp [wordsAux, this]
  | cons c cs ih =>
    intro acc hs _
    have hc : pyWs c = false := hs c (by simp)
    have := ih (c :: acc) (fun x hx => hs x (by simp [hx])) (by simp)
    simp [wordsAux, hc, this]

theorem pyWords_self {w : Str} (hne : w ≠ []) (hws : ∀ c ∈ w, pyWs c = false) :
    pyWords w = [w] := by
  simpa [pyWords] using wordsAux_all_nonWs w [] hws (fun _ => hne)

theorem pyWords_word_self {s w : Str} (hw : w ∈ pyWords s) : pyWords w = [w] :=
  have h := wordsAux_mem s [] w (by simp) hw
  pyWords_self h.1 h.2

theorem flatten_map_pyWords : ∀ {l : List Str}, (∀ w ∈ l, pyWords w = [w]) →
    (l.map pyWords).flatten = l := by
  intro l
  induction l with
  | nil => simp
  | cons w l ih =>
    intro h
    simp only [List.map_cons, List.flatten_cons, h w (by simp)]
    simp [ih (fun x hx => h x (by simp [hx]))]

theorem pyWords_joinSp_self {l : List Str} (h : ∀ w ∈ l, pyWords w = [w]) :
    pyWords (joinSp l) = l := by
  rw [pyWords_joinSp, flatten_map_pyWords h]

/- ### The chunker -/

theorem cleanSents_nil : cleanSents [] = [] := rfl

theorem cleanSents_cons (s : Str) (ss : List Str) :
    cleanSents (s :: ss) =
      if pyStrip s = [] then cleanSents ss else pyStrip s :: cleanSents ss := by
  by_cases h : pyStrip s = [] <;> simp [cleanSents, h]

/- ### Step equations for `chunkLoop` -/

theorem chunkLoop_nil (target overlap : Nat) (cur : List Str) (cnt : Nat) :
    chunkLoop target overlap [] cur cnt = if cur = [] then [] else [joinSp cur] := rfl

theorem chunkLoop_cons_skip (target overlap : Nat) (s : Str) (rest : List Str)
    (cur : List Str) (cnt : Nat) (h : pyStrip s = []) :
    chunkLoop target overlap (s :: rest) cur cnt =
      chunkLoop target overlap rest cur cnt := by
  simp [chunkLoop, h]

theorem chunkLoop_cons_close_ov (target overlap : Nat) (s : Str) (rest : List Str)
    (cur : List Str) (cnt : Nat) (h : pyStrip s ≠ [])
    (hcl : cnt + (pyWords (pyStrip s)).length > target ∧ cur ≠ []) (hov : 0 < overlap) :
    chunkLoop target overlap (s :: rest) cur cnt =
      joinSp cur ::
        chunkLoop target overlap rest
          [joinSp ((pyWords (joinSp cur)).drop ((pyWords (joinSp cur)).length - overlap)),
           pyStrip s]
          ((pyWords (joinSp ((pyWords (joinSp cur)).drop
              ((pyWords (joinSp cur)).length - overlap)))).length
            + (pyWords (pyStrip s)).length) := by
  simp [chunkLoop, h, hcl, hov]

theorem chunkLoop_cons_close_z (target : Nat) (s : Str) (rest : List Str)
    (cur : List Str) (cnt : Nat) (h : pyStrip s ≠ [])
    (hcl : cnt + (pyWords (pyStrip s)).length > target ∧ cur ≠ []) :
    chunkLoop target 0 (s :: rest) cur cnt =
      joinSp cur :: chunkLoop target 0 rest [pyStrip s] (pyWords (pyStrip s)).length := by
  simp [chunkLoop, h, hcl]

theorem chunkLoop_cons_add (target overlap : Nat) (s : Str) (rest : List Str)
    (cur : List Str) (cnt : Nat) (h : pyStrip s ≠ [])
    (hcl : ¬(cnt + (pyWords (pyStrip s)).length > target ∧ cur ≠ [])) :
    chunkLoop target overlap (s :: rest) cur cnt =
      chunkLoop target overlap rest (cur ++ [pyStrip s])
        (cnt + (pyWords (pyStrip s)).length) := by
  simp [chunkLoop, h, hcl]

/- ### Decomposition of the chunk list -/

/-- Master invariant of the accumulation loop: with the current window
split as `curPre ++ curTail` (`curPre` the overlap seed, `curTail` real
sentences), the emitted chunks decompose into (seed, sentence-segment)
pairs whose segments concatenate to exactly the pending sentences, and
with `overlap = 0` every seed is empty. -/
theorem chunkLoop_decomp (target overlap : Nat) (rest : List Str) :
    ∀ (curPre curTail : List Str) (cnt : Nat),
      ∃ decomp : List (List Str × List Str),
        chunkLoop target overlap rest (curPre ++ curTail) cnt
          = decomp.map (fun p => joinSp (p.1 ++ p.2))
        ∧ (decomp.map Prod.snd).flatten = curTail ++ cleanSents rest
        ∧ (overlap = 0 → curPre = [] → ∀ p ∈ decomp, p.1 = []) := by
  induction rest with
  | nil =>
    intro curPre curTail cnt
    by_cases h : curPre ++ curTail = []
    · refine ⟨[], ?_, ?_, by simp⟩
      · rw [h, chunkLoop_nil]; simp
      · have := (List.append_eq_nil.mp h).2
        simp [this, cleanSents_nil]
    · refine ⟨[(curPre, curTail)], ?_, by simp [cleanSents_nil], by simp⟩
      rw [chunkLoop_nil, if_neg h]
      simp
  | cons s rest ih =>
    intro curPre curTail cnt
    by_cases h1 : pyStrip s = []
    · obtain ⟨d, e1, e2, e3⟩ := ih curPre curTail cnt
      refine ⟨d, ?_, ?_, e3⟩
      · rw [chunkLoop_cons_skip _ _ _ _ _ _ h1]; exact e1
      · rw [cleanSents_cons, if_pos h1]; exact e2
    · by_cases hcl : cnt + (pyWords (pyStrip s)).length > target ∧ curPre ++ curTail ≠ []
      · by_cases hov : 0 < overlap
        · obtain ⟨d, e1, e2, e3⟩ :=
            ih [joinSp ((pyWords (joinSp (curPre ++ curTail))).drop
                  ((pyWords (joinSp (curPre ++ curTail))).length - overlap))]
               [pyStrip s]
               ((pyWords (joinSp ((pyWords (joinSp (curPre ++ curTail))).drop
                  ((pyWords (joinSp (curPre ++ curTail))).length - overlap)))).length
                 + (pyWords (pyStrip s)).length)
          refine ⟨(curPre, curTail) :: d, ?_, ?_, ?_⟩
          · rw [chunkLoop_cons_close_ov _ _ _ _ _ _ h1 hcl hov]
            simp only [List.map_cons]
            congr 1
          · simp only [List.map_cons, List.flatten_cons]
            rw [e2, cleanSents_cons, if_neg h1]
            simp
          · intro h0
            exact absurd hov (by omega)
        · have hz : overlap = 0 := by omega
          subst hz
          obtain ⟨d, e1, e2, e3⟩ := ih [] [pyStrip s] (pyWords (pyStrip s)).length
          refine ⟨(curPre, curTail) :: d, ?_, ?_, ?_⟩
          · rw [chunkLoop_cons_close_z _ _ _ _ _ h1 hcl]
            simp only [List.map_cons]
            congr 1
          · simp only [List.map_cons, List.flatten_cons]
            rw [e2, cleanSents_cons, if_neg h1]
            simp
          · intro _ hP p hp
            rcases List.mem_cons.mp hp with rfl | hp
            · exact hP
            · exact e3 rfl rfl p hp
      · obtain ⟨d, e1, e2, e3⟩ :=
          ih curPre (curTail ++ [pyStrip s]) (cnt + (pyWords (pyStrip s)).length)
        refine ⟨d, ?_, ?_, e3⟩
        · rw [chunkLoop_cons_add _ _ _ _ _ _ h1 hcl, List.append_assoc]
          exact e1
        · rw [e2, cleanSents_cons, if_neg h1]
          simp

theorem mem_joinSp_sub {s : Str} : ∀ {l : List Str}, s ∈ l → s <:+: joinSp l := by
  intro l
  induction l with
  | nil => simp
  | cons t rest ih =>
    intro hs
    rcases List.mem_cons.mp hs with rfl | hs
    · cases rest with
      | nil => exact ⟨[], [], by simp [joinSp]⟩
      | cons u r => exact ⟨[], ' ' :: joinSp (u :: r), rfl⟩
    · cases rest with
      | nil => exact absurd hs (List.not_mem_nil s)
      | cons u r =>
        refine sub_trans (ih hs) (sub_of_suffix ⟨t ++ [' '], ?_⟩)
        simp [joinSp]

/-- Every stripped non-empty sentence of the input is a substring of some
returned chunk (shared by several claims). -/
theorem sentence_in_some_chunk (text : Str) (target overlap : Nat) :
    ∀ s ∈ cleanSents (splitSentences text),
      ∃ c ∈ split_into_chunks text target overlap, s <:+: c := by
  obtain ⟨d, e1, e2, _⟩ := chunkLoop_decomp target overlap (splitSentences text) [] [] 0
  intro s hs
  rw [show cleanSents (splitSentences text) = (d.map Prod.snd).flatten from by
    simpa using e2.symm] at hs
  obtain ⟨l, hl, hsl⟩ := List.mem_flatten.mp hs
  obtain ⟨p, hp, rfl⟩ := List.mem_map.mp hl
  refine ⟨joinSp (p.1 ++ p.2), ?_, mem_joinSp_sub (by simp [hsl])⟩
  have e1x : split_into_chunks text target overlap
      = d.map (fun p => joinSp (p.1 ++ p.2)) := e1
  rw [e1x]
  exact List.mem_map.mpr ⟨p, hp, rfl⟩

/-- C2: with `overlap_words = 0`, the returned chunks are exactly the
space-joins of a partition of the input's (stripped, non-empty) sentence
sequence into consecutive segments: every sentence appears exactly once,
in the original order, and no text is repeated across chunks. -/
theorem chunks_partition_zero_overlap (text : Str) (target : Nat) :
    ∃ segs : List (List Str),
      split_into_chunks text target 0 = segs.map joinSp
      ∧ segs.flatten = cleanSents (splitSentences text) := by
  obtain ⟨d, e1, e2, e3⟩ := chunkLoop_decomp target 0 (splitSentences text) [] [] 0
  refine ⟨d.map Prod.snd, ?_, by simpa using e2⟩
  have hfst := e3 rfl rfl
  have e1x : split_into_chunks text target 0
      = d.map (fun p => joinSp (p.1 ++ p.2)) := e1
  rw [e1x, List.map_map]
  refine List.map_congr_left ?_
  intro p hp
  simp [hfst p hp]

/-- C10: `split_into_chunks` never drops or truncates content, for every
target and overlap (validated or not): the chunks decompose into
(seed, sentence-segment) pairs whose segments concatenate, in order, to
the full stripped sentence sequence of the input, and every such sentence
occurs verbatim inside some returned chunk. -/
theorem chunks_keep_all_sentences (text : Str) (target overlap : Nat) :
    ∃ decomp : List (List Str × List Str),
      split_into_chunks text target overlap
          = decomp.map (fun p => joinSp (p.1 ++ p.2))
      ∧ (decomp.map Prod.snd).flatten = cleanSents (splitSentences text)
      ∧ ∀ s ∈ cleanSents (splitSentences text),
          ∃ c ∈ split_into_chunks text target overlap, s <:+: c := by
  obtain ⟨d, e1, e2, _⟩ := chunkLoop_decomp target overlap (splitSentences text) [] [] 0
  exact ⟨d, e1, by simpa using e2, sentence_in_some_chunk text target overlap⟩

/-- C6: a single-sentence input is returned as exactly one chunk, whole,
also when its word count exceeds the target (the sentence that triggers a
close is appended whole to the new window); and in general every stripped
sentence survives verbatim inside some chunk. -/
theorem single_sentence_whole_chunk (text : Str) (target overlap : Nat) :
    (splitSentences text = [text] → pyStrip text = text →
      target < (pyWords text).length →
      split_into_chunks text target overlap = [text])
    ∧ ∀ s ∈ cleanSents (splitSentences text),
        ∃ c ∈ split_into_chunks text target overlap, s <:+: c := by
  refine ⟨?_, sentence_in_some_chunk text target overlap⟩
  intro hsent hstrip hlen
  have hne : text ≠ [] := by
    intro h
    rw [h] at hlen
    simp [pyWords, wordsAux] at hlen
  have h1 : pyStrip text ≠ [] := by rw [hstrip]; exact hne
  have hcl : ¬(0 + (pyWords (pyStrip text)).length > target ∧ ([] : List Str) ≠ []) := by
    simp
  rw [split_into_chunks, hsent, chunkLoop_cons_add _ _ _ _ _ _ h1 hcl, chunkLoop_nil,
    if_neg (by simp : ¬(([] : List Str) ++ [pyStrip text] = []))]
  simp [joinSp, hstrip]

/- ### The overlap relation between consecutive chunks -/

theorem chunkLoop_chain (target overlap : Nat) (hov : 0 < overlap) (rest : List Str) :
    ∀ (cur : List Str) (cnt : Nat), cur ≠ [] →
      (∃ ext, (chunkLoop target overlap rest cur cnt).head?
          = some (joinSp (cur ++ ext)))
      ∧ List.Chain' (overlapRel overlap) (chunkLoop target overlap rest cur cnt) := by
  induction rest with
  | nil =>
    intro cur cnt hne
    rw [chunkLoop_nil, if_neg hne]
    exact ⟨⟨[], by simp⟩, List.chain'_singleton _⟩
  | cons s rest ih =>
    intro cur cnt hne
    by_cases h1 : pyStrip s = []
    · rw [chunkLoop_cons_skip _ _ _ _ _ _ h1]
      exact ih cur cnt hne
    · by_cases hcl : cnt + (pyWords (pyStrip s)).length > target ∧ cur ≠ []
      · rw [chunkLoop_cons_close_ov _ _ _ _ _ _ h1 hcl hov]
        set sd := joinSp ((pyWords (joinSp cur)).drop
          ((pyWords (joinSp cur)).length - overlap)) with hsd
        obtain ⟨⟨ext, hhead⟩, hchain⟩ :=
          ih [sd, pyStrip s] ((pyWords sd).length + (pyWords (pyStrip s)).length) (by simp)
        refine ⟨⟨[], by simp⟩, ?_⟩
        rw [List.chain'_cons']
        refine ⟨?_, hchain⟩
        intro y hy
        rw [hhead] at hy
        have hy2 : joinSp (sd :: pyStrip s :: ext) = y := by simpa using hy
        subst hy2
        have hseedW : pyWords sd
            = (pyWords (joinSp cur)).drop ((pyWords (joinSp cur)).length - overlap) := by
          rw [hsd]
          exact pyWords_joinSp_self (fun w hw => pyWords_word_self (List.mem_of_mem_drop hw))
        have hexp : pyWords (joinSp (sd :: pyStrip s :: ext))
            = pyWords sd ++ pyWords (joinSp (pyStrip s :: ext)) := by
          rw [show joinSp (sd :: pyStrip s :: ext)
              = sd ++ ' ' :: joinSp (pyStrip s :: ext) from rfl, pyWords_append_sp]
        unfold overlapRel
        rw [hexp, hseedW]
        exact List.prefix_append _ _
      · rw [chunkLoop_cons_add _ _ _ _ _ _ h1 hcl]
        obtain ⟨⟨ext, hhead⟩, hchain⟩ :=
          ih (cur ++ [pyStrip s]) (cnt + (pyWords (pyStrip s)).length) (by simp)
        refine ⟨⟨[pyStrip s] ++ ext, ?_⟩, hchain⟩
        rw [hhead, List.append_assoc]

theorem chunkLoop_chain_top (target overlap : Nat) (hov : 0 < overlap) (rest : List Str) :
    List.Chain' (overlapRel overlap) (chunkLoop target overlap rest [] 0) := by
  induction rest with
  | nil => simp [chunkLoop_nil]
  | cons s rest ih =>
    by_cases h1 : pyStrip s = []
    · rw [chunkLoop_cons_skip _ _ _ _ _ _ h1]
      exact ih
    · have hcl : ¬((0 : Nat) + (pyWords (pyStrip s)).length > target
          ∧ ([] : List Str) ≠ []) := by simp
      rw [chunkLoop_cons_add _ _ _ _ _ _ h1 hcl]
      exact (chunkLoop_chain target overlap hov rest ([] ++ [pyStrip s])
        (0 + (pyWords (pyStrip s)).length) (by simp)).2

/-- C3: for `overlap_words > 0`, the trailing `overlap_words`-or-fewer
words of chunk `i` reappear verbatim as the leading words of chunk
`i + 1`, whenever chunk `i + 1` exists. -/
theorem chunk_overlap_carries (text : Str) (target overlap : Nat) (hov : 0 < overlap)
    (i : Nat) (hi : i + 1 < (split_into_chunks text target overlap).length) :
    ((pyWords ((split_into_chunks text target overlap).get
        ⟨i, Nat.lt_of_succ_lt hi⟩)).drop
      ((pyWords ((split_into_chunks text target overlap).get
        ⟨i, Nat.lt_of_succ_lt hi⟩)).length - overlap))
      <+: pyWords ((split_into_chunks text target overlap).get ⟨i + 1, hi⟩) := by
  have h := chunkLoop_chain_top target overlap hov (splitSentences text)
  have hlt : i < (chunkLoop target overlap (splitSentences text) [] 0).length - 1 := by
    show i < (split_into_chunks text target overlap).length - 1
    omega
  exact List.chain'_iff_get.mp h i hlt

/- ### Word-count bound on chunks -/

theorem le_foldr_max : ∀ (l : List Nat) (x : Nat), x ∈ l → x ≤ l.foldr max 0 := by
  intro l
  induction l with
  | nil => simp
  | cons a l ih =>
    intro x hx
    rcases List.mem_cons.mp hx with rfl | hx
    · simp only [List.foldr]
      omega
    · have := ih x hx
      simp only [List.foldr]
      omega

theorem chunkLoop_bound (target overlap m : Nat) (rest : List Str) :
    ∀ (cur : List Str) (cnt : Nat),
      cnt = (pyWords (joinSp cur)).length →
      (pyWords (joinSp cur)).length ≤ max target (overlap + m) →
      (∀ s ∈ cleanSents rest, (pyWords s).length ≤ m) →
      ∀ c ∈ chunkLoop target overlap rest cur cnt,
        (pyWords c).length ≤ max target (overlap + m) := by
  induction rest with
  | nil =>
    intro cur cnt _ hbound _ c hc
    rw [chunkLoop_nil] at hc
    by_cases h : cur = []
    · simp [h] at hc
    · rw [if_neg h] at hc
      rcases List.mem_singleton.mp hc with rfl
      exact hbound
  | cons s rest ih =>
    intro cur cnt hcnt hbound hm
    by_cases h1 : pyStrip s = []
    · rw [chunkLoop_cons_skip _ _ _ _ _ _ h1]
      refine ih cur cnt hcnt hbound ?_
      intro x hx
      refine hm x ?_
      rw [cleanSents_cons, if_pos h1]
      exact hx
    · have hs1m : (pyWords (pyStrip s)).length ≤ m := by
        refine hm (pyStrip s) ?_
        rw [cleanSents_cons, if_neg h1]
        simp
      have hmrest : ∀ x ∈ cleanSents rest, (pyWords x).length ≤ m := by
        intro x hx
        refine hm x ?_
        rw [cleanSents_cons, if_neg h1]
        simp [hx]
      by_cases hcl : cnt + (pyWords (pyStrip s)).length > target ∧ cur ≠ []
      · by_cases hov : 0 < overlap
        · rw [chunkLoop_cons_close_ov _ _ _ _ _ _ h1 hcl hov]
          intro c hc
          rcases List.mem_cons.mp hc with rfl | hc
          · exact hbound
          · set sd := joinSp ((pyWords (joinSp cur)).drop
              ((pyWords (joinSp cur)).length - overlap)) with hsd
            have hseedW : pyWords sd
                = (pyWords (joinSp cur)).drop ((pyWords (joinSp cur)).length - overlap) := by
              rw [hsd]
              exact pyWords_joinSp_self
                (fun w hw => pyWords_word_self (List.mem_of_mem_drop hw))
            have hlen2 : (pyWords (joinSp [sd, pyStrip s])).length
                = (pyWords sd).length + (pyWords (pyStrip s)).length := by
              rw [pyWords_joinSp]
              simp
            refine ih [sd, pyStrip s] _ hlen2.symm ?_ hmrest c hc
            rw [hlen2, hseedW, List.length_drop]
            omega
        · have hz : overlap = 0 := by omega
          subst hz
          rw [chunkLoop_cons_close_z _ _ _ _ _ h1 hcl]
          intro c hc
          rcases List.mem_cons.mp hc with rfl | hc
          · exact hbound
          · have hj : joinSp [pyStrip s] = pyStrip s := rfl
            refine ih [pyStrip s] _ (by rw [hj]) ?_ hmrest c hc
            rw [hj]
            omega
      · rw [chunkLoop_cons_add _ _ _ _ _ _ h1 hcl]
        have hlen : (pyWords (joinSp (cur ++ [pyStrip s]))).length
            = (pyWords (joinSp cur)).length + (pyWords (pyStrip s)).length := by
          rw [pyWords_joinSp, pyWords_joinSp]
          simp
        refine ih (cur ++ [pyStrip s]) _ (by rw [hlen, hcnt]) ?_ hmrest
        rw [hlen]
        by_cases hA : cnt + (pyWords (pyStrip s)).length > target
        · have hcur : cur = [] := by
            by_contra hne
            exact hcl ⟨hA, hne⟩
          subst hcur
          have : (pyWords (joinSp ([] : List Str))).length = 0 := rfl
          omega
        · omega

/-- C1 (amended): for every input and both parameters, every chunk's word
count is at most `max target_word_count (overlap_words + M)` where `M` is
the largest single-sentence word count; the originally claimed bound
`target_word_count` itself can be exceeded by a non-final chunk once
`overlap_words > 0`, because a freshly seeded window already holds the
overlap words on top of the triggering sentence. -/
theorem chunk_word_bound (text : Str) (target overlap : Nat) (c : Str)
    (hc : c ∈ split_into_chunks text target overlap) :
    (pyWords c).length ≤ max target (overlap + maxSentWords text) := by
  refine chunkLoop_bound target overlap (maxSentWords text) (splitSentences text)
    [] 0 rfl (by simp [joinSp, pyWords, wordsAux]) ?_ c hc
  intro s hs
  exact le_foldr_max _ _ (List.mem_map.mpr ⟨s, hs, rfl⟩)

/-- C1 counterexample: with `target_word_count = 10` and
`overlap_words = 9` (so `0 ≤ 9 < 10`), no single sentence exceeds ten
words, yet chunk 1 of the four returned chunks — not the last — has
twelve words. -/
theorem chunk_word_bound_cex :
    (0 < 10 ∧ 9 < 10)
    ∧ (∀ s ∈ cleanSents (splitSentences c1txt), (pyWords s).length ≤ 10)
    ∧ (split_into_chunks c1txt 10 9).length = 4
    ∧ 10 < (pyWords ((split_into_chunks c1txt 10 9).get ⟨1, by decide⟩)).length := by
  decide

/-- Witness of the amended C1 bound at a concrete chunk. -/
theorem chunk_word_bound_wit :
    (pyWords ((split_into_chunks c1txt 10 9).get ⟨1, by decide⟩)).length
      ≤ max 10 (9 + maxSentWords c1txt) :=
  chunk_word_bound c1txt 10 9 _ (List.get_mem _ _ _)

/- ### Lemmas about the cleaner -/

theorem head_dropWhile (p : Char → Bool) :
    ∀ {l : Str} {a : Char}, (l.dropWhile p).head? = some a → p a = false
  | [], a, h => by simp at h
  | c :: cs, a, h => by
    by_cases hc : p c
    · rw [List.dropWhile_cons_of_pos hc] at h
      exact head_dropWhile p h
    · rw [List.dropWhile_cons_of_neg hc] at h
      simp only [List.head?_cons, Option.some.injEq] at h
      subst h
      simpa using hc

theorem dropWhile_eq_self_of_head {p : Char → Bool} :
    ∀ {l : Str}, (∀ a, l.head? = some a → p a = false) → l.dropWhile p = l
  | [], _ => rfl
  | c :: cs, h => by
    rw [List.dropWhile_cons_of_neg]
    simp [h c rfl]

theorem pref_head {u v : Str} {c : Char} (h : u <+: v) (hc : u.head? = some c) :
    v.head? = some c := by
  obtain ⟨t, rfl⟩ := h
  cases u with
  | nil => simp at hc
  | cons a u2 => simpa using hc

theorem spM_head : ∀ s : Str, (collapseSpM false s).head? = s.head?
  | [] => rfl
  | c :: cs => by by_cases hc : c = ' ' <;> simp [collapseSpM, hc]

theorem spM_true : ∀ s : Str,
    collapseSpM true s = collapseSpM false (s.dropWhile (fun c => c == ' '))
  | [] => rfl
  | c :: cs => by
    by_cases hc : c = ' '
    · rw [show collapseSpM true (c :: cs) = collapseSpM true cs from by
        simp [collapseSpM, hc]]
      rw [spM_true cs, List.dropWhile_cons_of_pos (by simp [hc])]
    · rw [show collapseSpM true (c :: cs) = c :: collapseSpM false cs from by
        simp [collapseSpM, hc]]
      rw [List.dropWhile_cons_of_neg (by simp [hc])]
      rw [show collapseSpM false (c :: cs) = c :: collapseSpM false cs from by
        simp [collapseSpM, hc]]

theorem nlM_head : ∀ s : Str, (collapseNlM false s).head? = s.head?
  | [] => rfl
  | [c] => rfl
  | c :: d :: cs2 => by
    by_cases h : c = '\n' ∧ d = '\n' <;> simp [collapseNlM, h]

theorem nlM_true : ∀ s : Str,
    collapseNlM true s = collapseNlM false (s.dropWhile (fun c => c == '\n'))
  | [] => rfl
  | c :: cs => by
    by_cases hc : c = '\n'
    · rw [show collapseNlM true (c :: cs) = collapseNlM true cs from by
        simp [collapseNlM, hc]]
      rw [nlM_true cs, List.dropWhile_cons_of_pos (by simp [hc])]
    · rw [show collapseNlM true (c :: cs) = c :: collapseNlM false cs from by
        simp [collapseNlM, hc]]
      rw [List.dropWhile_cons_of_neg (by simp [hc])]
      cases cs with
      | nil => rfl
      | cons d cs2 =>
        rw [show collapseNlM false (c :: d :: cs2) = c :: collapseNlM false (d :: cs2) from by
          simp [collapseNlM, hc]]

theorem collapseSp_noDouble : ∀ s : Str, ¬ ([' ', ' '] <:+: collapseSpM false s)
  | [] => by simp [collapseSpM]
  | c :: cs => by
    by_cases hc : c = ' '
    · rw [show collapseSpM false (c :: cs) = ' ' :: collapseSpM true cs from by
        simp [collapseSpM, hc]]
      rw [spM_true]
      intro h
      rcases sub_cons h with h | h
      · obtain ⟨t, ht⟩ := h
        injection ht with h1 h2
        have hx : (collapseSpM false (cs.dropWhile (fun x => x == ' '))).head? = some ' ' := by
          rw [← h2]
          rfl
        rw [spM_head] at hx
        have := head_dropWhile _ hx
        simp at this
      · exact collapseSp_noDouble (cs.dropWhile (fun x => x == ' ')) h
    · rw [show collapseSpM false (c :: cs) = c :: collapseSpM false cs from by
        simp [collapseSpM, hc]]
      intro h
      rcases sub_cons h with h | h
      · obtain ⟨t, ht⟩ := h
        injection ht with h1 h2
        exact hc h1.symm
      · exact collapseSp_noDouble cs h
  termination_by s => s.length
  decreasing_by
  · exact Nat.lt_succ_of_le (List.dropWhile_suffix _).length_le
  · simp

theorem collapseNl_noTriple : ∀ s : Str, ¬ (['\n', '\n', '\n'] <:+: collapseNlM false s)
  | [] => by simp [collapseNlM]
  | [c] => by
    intro h
    rcases sub_cons h with h | h
    · obtain ⟨t, ht⟩ := h
      simpa using congrArg List.length ht
    · simp at h
  | c :: d :: cs2 => by
    by_cases hnn : c = '\n' ∧ d = '\n'
    · rw [show collapseNlM false (c :: d :: cs2) = '\n' :: '\n' :: collapseNlM true cs2 from by
        simp [collapseNlM, hnn]]
      rw [nlM_true]
      intro h
      have hhd : ¬ (collapseNlM false (cs2.dropWhile (fun x => x == '\n'))).head?
          = some '\n' := by
        rw [nlM_head]
        intro hx
        have := head_dropWhile _ hx
        simp at this
      rcases sub_cons h with h | h
      · obtain ⟨t, ht⟩ := h
        injection ht with h1 h2
        injection h2 with h3 h4
        exact hhd (by rw [← h4]; rfl)
      rcases sub_cons h with h | h
      · obtain ⟨t, ht⟩ := h
        injection ht with h1 h2
        exact hhd (by rw [← h2]; rfl)
      · exact collapseNl_noTriple (cs2.dropWhile (fun x => x == '\n')) h
    · rw [show collapseNlM false (c :: d :: cs2) = c :: collapseNlM false (d :: cs2) from by
        simp [collapseNlM, hnn]]
      intro h
      rcases sub_cons h with h | h
      · obtain ⟨t, ht⟩ := h
        injection ht with h1 h2
        have hd : d = '\n' := by
          have hx : (collapseNlM false (d :: cs2)).head? = some '\n' := by
            rw [← h2]; rfl
          rw [nlM_head] at hx
          simpa using hx
        exact hnn ⟨h1.symm, hd⟩
      · exact collapseNl_noTriple (d :: cs2) h
  termination_by s => s.length
  decreasing_by
  · exact Nat.lt_of_le_of_lt (List.dropWhile_suffix _).length_le
      (by simp only [List.length_cons]; omega)
  · simp

theorem sub_collapseNl : ∀ s : Str, [' ', ' '] <:+: collapseNlM false s → [' ', ' '] <:+: s
  | [] => by simp [collapseNlM]
  | [c] => by
    intro h
    rcases sub_cons h with h | h
    · obtain ⟨t, ht⟩ := h
      simpa using congrArg List.length ht
    · simp at h
  | c :: d :: cs2 => by
    intro h
    by_cases hnn : c = '\n' ∧ d = '\n'
    · rw [show collapseNlM false (c :: d :: cs2) = '\n' :: '\n' :: collapseNlM true cs2 from by
        simp [collapseNlM, hnn], nlM_true] at h
      rcases sub_cons h with h | h
      · obtain ⟨t, ht⟩ := h
        injection ht with h1 h2
        exact absurd h1 (by decide)
      rcases sub_cons h with h | h
      · obtain ⟨t, ht⟩ := h
        injection ht with h1 h2
        exact absurd h1 (by decide)
      · have h2 := sub_collapseNl (cs2.dropWhile (fun x => x == '\n')) h
        exact sub_trans (sub_trans h2 (sub_of_suffix (List.dropWhile_suffix _)))
          (sub_of_suffix ⟨[c, d], rfl⟩)
    · rw [show collapseNlM false (c :: d :: cs2) = c :: collapseNlM false (d :: cs2) from by
        simp [collapseNlM, hnn]] at h
      rcases sub_cons h with h | h
      · obtain ⟨t, ht⟩ := h
        injection ht with h1 h2
        have hd : d = ' ' := by
          have hx : (collapseNlM false (d :: cs2)).head? = some ' ' := by
            rw [← h2]; rfl
          rw [nlM_head] at hx
          simpa using hx
        exact ⟨[], cs2, by simp [← h1, hd]⟩
      · exact sub_trans (sub_collapseNl (d :: cs2) h) (sub_of_suffix ⟨[c], rfl⟩)
  termination_by s => s.length
  decreasing_by
  · exact Nat.lt_of_le_of_lt (List.dropWhile_suffix _).length_le
      (by simp only [List.length_cons]; omega)
  · simp

theorem collapseSp_of_noDouble : ∀ s : Str, ¬ ([' ', ' '] <:+: s) → collapseSpM false s = s
  | [], _ => rfl
  | c :: cs, h => by
    have hcs : ¬ ([' ', ' '] <:+: cs) := fun hx =>
      h (sub_trans hx (sub_of_suffix ⟨[c], rfl⟩))
    by_cases hc : c = ' '
    · subst hc
      have hhd : cs.dropWhile (fun x => x == ' ') = cs := by
        refine dropWhile_eq_self_of_head ?_
        intro a ha
        by_cases haa : a = ' '
        · subst haa
          exfalso
          cases cs with
          | nil => simp at ha
          | cons b cs2 =>
            simp only [List.head?_cons, Option.some.injEq] at ha
            exact h (sub_of_pref ⟨cs2, by simp [ha]⟩)
        · simpa using haa
      rw [show collapseSpM false (' ' :: cs) = ' ' :: collapseSpM true cs from by
        simp [collapseSpM]]
      rw [spM_true, hhd, collapseSp_of_noDouble cs hcs]
    · rw [show collapseSpM false (c :: cs) = c :: collapseSpM false cs from by
        simp [collapseSpM, hc]]
      rw [collapseSp_of_noDouble cs hcs]

theorem collapseNl_of_noTriple :
    ∀ s : Str, ¬ (['\n', '\n', '\n'] <:+: s) → collapseNlM false s = s
  | [], _ => rfl
  | [c], _ => rfl
  | c :: d :: cs2, h => by
    by_cases hnn : c = '\n' ∧ d = '\n'
    · have hhd : cs2.dropWhile (fun x => x == '\n') = cs2 := by
        refine dropWhile_eq_self_of_head ?_
        intro a ha
        by_cases haa : a = '\n'
        · subst haa
          exfalso
          cases cs2 with
          | nil => simp at ha
          | cons b cs3 =>
            simp only [List.head?_cons, Option.some.injEq] at ha
            exact h (sub_of_pref ⟨cs3, by simp [hnn.1, hnn.2, ha]⟩)
        · simpa using haa
      have hcs2 : ¬ (['\n', '\n', '\n'] <:+: cs2) := fun hx =>
        h (sub_trans hx (sub_of_suffix ⟨[c, d], rfl⟩))
      rw [show collapseNlM false (c :: d :: cs2) = '\n' :: '\n' :: collapseNlM true cs2 from by
        simp [collapseNlM, hnn]]
      rw [nlM_true, hhd, collapseNl_of_noTriple cs2 hcs2, hnn.1, hnn.2]
    · have hdc : ¬ (['\n', '\n', '\n'] <:+: d :: cs2) := fun hx =>
        h (sub_trans hx (sub_of_suffix ⟨[c], rfl⟩))
      rw [show collapseNlM false (c :: d :: cs2) = c :: collapseNlM false (d :: cs2) from by
        simp [collapseNlM, hnn]]
      rw [collapseNl_of_noTriple (d :: cs2) hdc]

/- ### Lemmas about `pyStrip` -/

theorem strip_pref (s : Str) : pyStrip s <+: s.dropWhile pyWs := by
  unfold pyStrip
  obtain ⟨u, hu⟩ := List.dropWhile_suffix (l := (s.dropWhile pyWs).reverse) pyWs
  exact ⟨u.reverse, by rw [← List.reverse_append, hu, List.reverse_reverse]⟩

theorem strip_sub (s : Str) : pyStrip s <:+: s :=
  sub_trans (sub_of_pref (strip_pref s)) (sub_of_suffix (List.dropWhile_suffix pyWs))

theorem strip_head {s : Str} {c : Char} (h : (pyStrip s).head? = some c) :
    pyWs c = false :=
  head_dropWhile pyWs (pref_head (strip_pref s) h)

theorem strip_last {s : Str} {c : Char} (h : (pyStrip s).getLast? = some c) :
    pyWs c = false := by
  unfold pyStrip at h
  rw [List.getLast?_reverse] at h
  exact head_dropWhile pyWs h

theorem strip_eq_self {s : Str} (h1 : ∀ a, s.head? = some a → pyWs a = false)
    (h2 : ∀ a, s.getLast? = some a → pyWs a = false) : pyStrip s = s := by
  unfold pyStrip
  rw [dropWhile_eq_self_of_head h1]
  rw [dropWhile_eq_self_of_head (fun a ha => h2 a (by rwa [← List.head?_reverse]))]
  rw [List.reverse_reverse]

theorem strip_idem (s : Str) : pyStrip (pyStrip s) = pyStrip s :=
  strip_eq_self (fun _ ha => strip_head ha) (fun _ ha => strip_last ha)

/- ### Lemmas about `removeAll` -/

theorem removeAll_of_not_sub (pat : Str) :
    ∀ s : Str, ¬ (pat <:+: s) → removeAll pat s = s
  | [], _ => rfl
  | c :: cs, h => by
    have hnp : ¬ (pat.isPrefixOf (c :: cs) ∧ pat ≠ []) := by
      rintro ⟨hp, -⟩
      exact h (sub_of_pref (List.isPrefixOf_iff_prefix.mp hp))
    have hcs : ¬ (pat <:+: cs) := fun hx =>
      h (sub_trans hx (sub_of_suffix ⟨[c], rfl⟩))
    show removeAllK pat (c :: cs) 0 = c :: cs
    rw [show removeAllK pat (c :: cs) 0
        = if pat.isPrefixOf (c :: cs) ∧ pat ≠ [] then removeAllK pat cs (pat.length - 1)
          else c :: removeAllK pat cs 0 from rfl,
      if_neg hnp]
    exact congrArg (c :: ·) (removeAll_of_not_sub pat cs hcs)

theorem foldl_removeAll_id :
    ∀ (ps : List Str) (s : Str), (∀ p ∈ ps, ¬ (p <:+: s)) →
      ps.foldl (fun t p => removeAll p t) s = s
  | [], s, _ => rfl
  | p :: ps, s, h => by
    rw [List.foldl_cons, removeAll_of_not_sub p s (h p (by simp))]
    exact foldl_removeAll_id ps s (fun q hq => h q (by simp [hq]))

/- ### Invariants of the cleaned text -/

theorem clean_noDouble (x : Str) : ¬ ([' ', ' '] <:+: clean_transcript_text x) := by
  intro h
  have h2 := sub_trans h (strip_sub _)
  exact collapseSp_noDouble _ (sub_collapseNl _ h2)

theorem clean_noTriple (x : Str) :
    ¬ (['\n', '\n', '\n'] <:+: clean_transcript_text x) := fun h =>
  collapseNl_noTriple _ (sub_trans h (strip_sub _))

/-- C5 (amended): the output of `clean_transcript_text` always satisfies
the three whitespace invariants — no two consecutive spaces, no three
consecutive newlines, no leading or trailing whitespace.  The fourth
claimed invariant, absence of residual noise markers, does not hold in
general (see the counterexample): removing a marker can splice a new
marker together, and `re.sub` never rescans. -/
theorem clean_whitespace_invariants (s : Str) :
    containsSub ("  ").toList (clean_transcript_text s) = false
    ∧ containsSub ("\n\n\n").toList (clean_transcript_text s) = false
    ∧ noEdgeWs (clean_transcript_text s) = true := by
  refine ⟨?_, ?_, ?_⟩
  · rw [← Bool.not_eq_true, containsSub_iff]
    exact clean_noDouble s
  · rw [← Bool.not_eq_true, containsSub_iff]
    exact clean_noTriple s
  · unfold noEdgeWs
    rw [Bool.and_eq_true]
    constructor
    · cases hh : (clean_transcript_text s).head? with
      | none => rfl
      | some c =>
        have := strip_head (s := collapseNl (collapseSp
          (placeholders.foldl (fun t p => removeAll p t) s))) hh
        simp [this]
    · cases hh : (clean_transcript_text s).getLast? with
      | none => rfl
      | some c =>
        have := strip_last (s := collapseNl (collapseSp
          (placeholders.foldl (fun t p => removeAll p t) s))) hh
        simp [this]

/-- C5 counterexample: cleaning `"[Mu[Music]sic]"` leaves the residual
noise marker `"[Music]"` in the output, refuting the no-residual-markers
conjunct of the claimed invariant. -/
theorem clean_marker_cex :
    clean_transcript_text c5txt = ("[Music]").toList
    ∧ containsSub ("[Music]").toList (clean_transcript_text c5txt) = true := by
  decide

/-- C4 counterexample: cleaning `"[Mu[Music]sic]"` yields `"[Music]"`,
and cleaning again yields `""` — the function is not idempotent. -/
theorem clean_not_idem_cex :
    clean_transcript_text (clean_transcript_text c4txt)
      ≠ clean_transcript_text c4txt := by
  decide

/-- C4 (amended): `clean_transcript_text` is idempotent on every input
whose cleaned output holds no residual placeholder marker — the only
obstruction is a marker spliced together by the non-rescanning removal
pass itself. -/
theorem clean_idempotent_no_marker (x : Str)
    (h : ∀ p ∈ placeholders, containsSub p (clean_transcript_text x) = false) :
    clean_transcript_text (clean_transcript_text x) = clean_transcript_text x := by
  have hsub : ∀ p ∈ placeholders, ¬ (p <:+: clean_transcript_text x) := by
    intro p hp hinf
    rw [← containsSub_iff] at hinf
    rw [h p hp] at hinf
    cases hinf
  show pyStrip (collapseNl (collapseSp
    (placeholders.foldl (fun t p => removeAll p t) (clean_transcript_text x))))
    = clean_transcript_text x
  rw [foldl_removeAll_id _ _ hsub,
    show collapseSp (clean_transcript_text x) = clean_transcript_text x from
      collapseSp_of_noDouble _ (clean_noDouble x),
    show collapseNl (clean_transcript_text x) = clean_transcript_text x from
      collapseNl_of_noTriple _ (clean_noTriple x)]
  exact strip_idem _

/-- Witness of amended C4 at a concrete input. -/
theorem clean_idempotent_no_marker_wit :
    clean_transcript_text (clean_transcript_text ("Hello  [Music]   world").toList)
      = clean_transcript_text ("Hello  [Music]   world").toList :=
  clean_idempotent_no_marker _ (by decide)

/-- Witness of C3 at a concrete input: the last two words of chunk 0 open
chunk 1. -/
theorem chunk_overlap_carries_wit :
    ((pyWords ((split_into_chunks c3txt 3 2).get ⟨0, by decide⟩)).drop
      ((pyWords ((split_into_chunks c3txt 3 2).get ⟨0, by decide⟩)).length - 2))
      <+: pyWords ((split_into_chunks c3txt 3 2).get ⟨1, by decide⟩) :=
  chunk_overlap_carries c3txt 3 2 (by decide) 0 (by decide)

/- ### The subtitle parser -/

theorem collectTextLines_eq : ∀ ls : List Str,
    collectTextLines ls = (ls.map pyStrip).filter (fun l => !skipLine l)
  | [] => rfl
  | l :: ls => by
    by_cases h : skipLine (pyStrip l) <;>
      simp [collectTextLines, h, collectTextLines_eq ls]

/-- C9: `parse_subtitles` returns exactly the kept lines joined by single
spaces, a (stripped) line being discarded precisely when it is empty,
all digits, or contains `-->`; consequently no kept line is a sequence
number or a time-range line. -/
theorem subtitles_keep_only_text (content : Str) :
    parse_subtitles content
      = joinSp (((splitOnChar '\n' content).map pyStrip).filter (fun l => !skipLine l))
    ∧ ∀ l ∈ ((splitOnChar '\n' content).map pyStrip).filter (fun l => !skipLine l),
        l ≠ [] ∧ pyIsDigit l = false ∧ containsSub ("-->").toList l = false := by
  refine ⟨congrArg joinSp (collectTextLines_eq _), ?_⟩
  intro l hl
  have h2 := List.of_mem_filter hl
  simp only [Bool.not_eq_true', skipLine, Bool.or_eq_false_iff] at h2
  obtain ⟨⟨he, hd⟩, hc⟩ := h2
  refine ⟨?_, hd, hc⟩
  intro hnil
  rw [hnil] at he
  simp at he

/- ### The Romanian date parser (src/fetch_banciu_videos.py) -/

/-- C7: `parse_romanian_date` succeeds exactly under the conditions of
`dateConds`, and on success returns the canonical zero-padded
`YYYY-MM-DD` string built from the parsed day, the looked-up month
number and the given year. -/
theorem date_parse_contract (s : Str) (y : Int) :
    ((parse_romanian_date s y).isSome ↔ dateConds s y)
    ∧ ∀ r, parse_romanian_date s y = some r →
        ∃ d m day mo, pyWords (pyStrip s) = [d, m] ∧ pyInt d = some day
          ∧ monthLookup (fixTypo (lowerStr m)) = some mo ∧ validPyDate y mo day
          ∧ r = fmtDate y mo day.toNat := by
  unfold parse_romanian_date dateConds
  rcases hw : pyWords (pyStrip s) with _ | ⟨d0, _ | ⟨m0, _ | ⟨x, rest⟩⟩⟩
  · simp [hw]
  · simp [hw]
  · rcases hd : pyInt d0 with _ | day
    · simp [hw, hd]
    · rcases hm : monthLookup (fixTypo (lowerStr m0)) with _ | mo
      · simp [hw, hd, hm]
      · by_cases hv : validPyDate y mo day
        · simp only [hw, hd, hm, if_pos hv, Option.isSome_some, true_iff]
          constructor
          · exact ⟨d0, m0, day, mo, rfl, hd, hm, hv⟩
          · intro r hr
            injection hr with e
            exact ⟨d0, m0, day, mo, rfl, hd, hm, hv, e.symm⟩
        · simp only [hw, hd, hm, if_neg hv]
          constructor
          · constructor
            · intro hck
              simp at hck
            · rintro ⟨d1, m1, day1, mo1, he, hd1, hm1, hv1⟩
              exfalso
              injection he with e1 e2
              injection e2 with e2 _
              subst e1
              subst e2
              rw [hd] at hd1
              injection hd1 with e3
              subst e3
              rw [hm] at hm1
              injection hm1 with e4
              subst e4
              exact hv hv1
          · intro r hr
            cases hr
  · simp [hw]

/-- Witness of C7: `"23 Septembrie"` with year 2024 parses to
`"2024-09-23"`. -/
theorem date_parse_contract_wit :
    parse_romanian_date (("23 Septembrie").toList) 2024 = some (("2024-09-23").toList)
    ∧ dateConds (("23 Septembrie").toList) 2024 := by
  refine ⟨by decide, ?_⟩
  exact ((date_parse_contract (("23 Septembrie").toList) 2024).1).mp (by decide)

/- ### Lemmas for the URL theorem -/

theorem splitOnFirst_no {p : Char → Bool} :
    ∀ {s : Str}, (∀ c ∈ s, p c = false) → splitOnFirst p s = none
  | [], _ => rfl
  | c :: cs, h => by
    have hc : p c = false := h c (by simp)
    have ih := splitOnFirst_no (p := p) (s := cs) (fun x hx => h x (by simp [hx]))
    simp [splitOnFirst, hc, ih]

theorem splitOnFirst_lit {p : Char → Bool} (d : Char) (hd : p d = true) :
    ∀ (a : Str), (∀ c ∈ a, p c = false) → ∀ (b : Str),
      splitOnFirst p (a ++ d :: b) = some (a, b)
  | [], _, b => by simp [splitOnFirst, hd]
  | c :: a2, h, b => by
    have hc : p c = false := h c (by simp)
    have ih := splitOnFirst_lit d hd a2 (fun x hx => h x (by simp [hx])) b
    simp [splitOnFirst, hc, ih]

theorem splitOnChar_none {d : Char} :
    ∀ {s : Str}, (∀ c ∈ s, (c == d) = false) → splitOnChar d s = [s]
  | [], _ => rfl
  | c :: cs, h => by
    have hc := h c (by simp)
    have ih := splitOnChar_none (d := d) (s := cs) (fun x hx => h x (by simp [hx]))
    simp [splitOnChar, hc, ih]

theorem splitOnChar_sep (d : Char) :
    ∀ (a : Str), (∀ c ∈ a, (c == d) = false) → ∀ (b : Str),
      splitOnChar d (a ++ d :: b) = a :: splitOnChar d b
  | [], _, b => by simp [splitOnChar]
  | c :: a2, h, b => by
    have hc := h c (by simp)
    have ih := splitOnChar_sep d a2 (fun x hx => h x (by simp [hx])) b
    simp [splitOnChar, hc, ih]

theorem unquotePlus_id :
    ∀ {s : Str}, (∀ c ∈ s, (c == '+') = false ∧ (c == '%') = false) →
      unquotePlus s = s
  | [], _ => rfl
  | [c], h => by
    have h1 := (h c (by simp)).1
    simp [unquotePlus, beq_eq_false_iff_ne.mp h1]
  | [c, c2], h => by
    have h1 := (h c (by simp)).1
    have h2 := (h c2 (by simp)).1
    simp [unquotePlus, beq_eq_false_iff_ne.mp h1, beq_eq_false_iff_ne.mp h2]
  | c :: h1 :: h2 :: cs2, h => by
    have hp := (h c (by simp)).1
    have hm := (h c (by simp)).2
    have ih := unquotePlus_id (s := h1 :: h2 :: cs2) (fun x hx => h x (by simp [hx]))
    simp only [unquotePlus, if_neg (beq_eq_false_iff_ne.mp hp),
      if_neg (beq_eq_false_iff_ne.mp hm), ih]

theorem goodIdChar_ne {c : Char} (h : goodIdChar c = true) (d : Char)
    (hd : goodIdChar d = false) : (c == d) = false := by
  rcases eq_or_ne c d with rfl | hne
  · rw [h] at hd
    cases hd
  · exact beq_eq_false_iff_ne.mpr hne

theorem urlsplit_youtu (id : Str) (hch : ∀ c ∈ id, goodIdChar c = true) :
    pyUrlsplit (("https://youtu.be/").toList ++ id)
      = ⟨("https").toList, ("youtu.be").toList, '/' :: id, [], []⟩ := by
  have hns : ∀ c ∈ '/' :: id, (c == '#') = false := by
    intro c hc
    rcases List.mem_cons.mp hc with rfl | hc
    · decide
    · exact goodIdChar_ne (hch c hc) '#' (by decide)
  have hnq : ∀ c ∈ '/' :: id, (c == '?') = false := by
    intro c hc
    rcases List.mem_cons.mp hc with rfl | hc
    · decide
    · exact goodIdChar_ne (hch c hc) '?' (by decide)
  have h1 : splitScheme (("https://youtu.be/").toList ++ id)
      = (("https").toList, ("//youtu.be/").toList ++ id) := by
    unfold splitScheme
    rw [show ("https://youtu.be/").toList ++ id
        = ("https").toList ++ ':' :: (("//youtu.be/").toList ++ id) from rfl]
    rw [splitOnFirst_lit ':' (by decide) (("https").toList) (by decide)
      ((("//youtu.be/").toList ++ id))]
    rfl
  have h2 : splitNetloc (("//youtu.be/").toList ++ id)
      = (("youtu.be").toList, '/' :: id) := rfl
  have h3 : splitFragment ('/' :: id) = ('/' :: id, []) := by
    unfold splitFragment
    rw [splitOnFirst_no hns]
  have h4 : splitQuery ('/' :: id) = ('/' :: id, []) := by
    unfold splitQuery
    rw [splitOnFirst_no hnq]
  unfold pyUrlsplit
  rw [h1]
  simp only [h2, h3, h4]

theorem urlsplit_watch (id : Str) (hch : ∀ c ∈ id, goodIdChar c = true) :
    pyUrlsplit (("https://www.youtube.com/watch?v=").toList ++ id)
      = ⟨("https").toList, ("www.youtube.com").toList, ("/watch").toList,
         ("v=").toList ++ id, []⟩ := by
  have hns : ∀ c ∈ ("/watch?v=").toList ++ id, (c == '#') = false := by
    intro c hc
    rcases List.mem_append.mp hc with hc | hc
    · exact (by decide : ∀ c ∈ ("/watch?v=").toList, (c == '#') = false) c hc
    · exact goodIdChar_ne (hch c hc) '#' (by decide)
  have h1 : splitScheme (("https://www.youtube.com/watch?v=").toList ++ id)
      = (("https").toList, ("//www.youtube.com/watch?v=").toList ++ id) := by
    unfold splitScheme
    rw [show ("https://www.youtube.com/watch?v=").toList ++ id
        = ("https").toList ++ ':' :: (("//www.youtube.com/watch?v=").toList ++ id)
        from rfl]
    rw [splitOnFirst_lit ':' (by decide) (("https").toList) (by decide) _]
    rfl
  have h2 : splitNetloc (("//www.youtube.com/watch?v=").toList ++ id)
      = (("www.youtube.com").toList, ("/watch?v=").toList ++ id) := rfl
  have h3 : splitFragment (("/watch?v=").toList ++ id)
      = (("/watch?v=").toList ++ id, []) := by
    unfold splitFragment
    rw [splitOnFirst_no hns]
  have h4 : splitQuery (("/watch?v=").toList ++ id)
      = (("/watch").toList, ("v=").toList ++ id) := by
    unfold splitQuery
    rw [show ("/watch?v=").toList ++ id
        = ("/watch").toList ++ '?' :: (("v=").toList ++ id) from rfl]
    rw [splitOnFirst_lit '?' (by decide) (("/watch").toList) (by decide) _]
  unfold pyUrlsplit
  rw [h1]
  simp only [h2, h3, h4]

theorem urlsplit_embed (id : Str) (hch : ∀ c ∈ id, goodIdChar c = true) :
    pyUrlsplit (("https://www.youtube.com/embed/").toList ++ id)
      = ⟨("https").toList, ("www.youtube.com").toList, ("/embed/").toList ++ id,
         [], []⟩ := by
  have hns : ∀ c ∈ ("/embed/").toList ++ id, (c == '#') = false := by
    intro c hc
    rcases List.mem_append.mp hc with hc | hc
    · exact (by decide : ∀ c ∈ ("/embed/").toList, (c == '#') = false) c hc
    · exact goodIdChar_ne (hch c hc) '#' (by decide)
  have hnq : ∀ c ∈ ("/embed/").toList ++ id, (c == '?') = false := by
    intro c hc
    rcases List.mem_append.mp hc with hc | hc
    · exact (by decide : ∀ c ∈ ("/embed/").toList, (c == '?') = false) c hc
    · exact goodIdChar_ne (hch c hc) '?' (by decide)
  have h1 : splitScheme (("https://www.youtube.com/embed/").toList ++ id)
      = (("https").toList, ("//www.youtube.com/embed/").toList ++ id) := by
    unfold splitScheme
    rw [show ("https://www.youtube.com/embed/").toList ++ id
        = ("https").toList ++ ':' :: (("//www.youtube.com/embed/").toList ++ id)
        from rfl]
    rw [splitOnFirst_lit ':' (by decide) (("https").toList) (by decide) _]
    rfl
  have h2 : splitNetloc (("//www.youtube.com/embed/").toList ++ id)
      = (("www.youtube.com").toList, ("/embed/").toList ++ id) := rfl
  have h3 : splitFragment (("/embed/").toList ++ id)
      = (("/embed/").toList ++ id, []) := by
    unfold splitFragment
    rw [splitOnFirst_no hns]
  have h4 : splitQuery (("/embed/").toList ++ id)
      = (("/embed/").toList ++ id, []) := by
    unfold splitQuery
    rw [splitOnFirst_no hnq]
  unfold pyUrlsplit
  rw [h1]
  simp only [h2, h3, h4]

theorem urlsplit_vpath (id : Str) (hch : ∀ c ∈ id, goodIdChar c = true) :
    pyUrlsplit (("https://www.youtube.com/v/").toList ++ id)
      = ⟨("https").toList, ("www.youtube.com").toList, ("/v/").toList ++ id,
         [], []⟩ := by
  have hns : ∀ c ∈ ("/v/").toList ++ id, (c == '#') = false := by
    intro c hc
    rcases List.mem_append.mp hc with hc | hc
    · exact (by decide : ∀ c ∈ ("/v/").toList, (c == '#') = false) c hc
    · exact goodIdChar_ne (hch c hc) '#' (by decide)
  have hnq : ∀ c ∈ ("/v/").toList ++ id, (c == '?') = false := by
    intro c hc
    rcases List.mem_append.mp hc with hc | hc
    · exact (by decide : ∀ c ∈ ("/v/").toList, (c == '?') = false) c hc
    · exact goodIdChar_ne (hch c hc) '?' (by decide)
  have h1 : splitScheme (("https://www.youtube.com/v/").toList ++ id)
      = (("https").toList, ("//www.youtube.com/v/").toList ++ id) := by
    unfold splitScheme
    rw [show ("https://www.youtube.com/v/").toList ++ id
        = ("https").toList ++ ':' :: (("//www.youtube.com/v/").toList ++ id)
        from rfl]
    rw [splitOnFirst_lit ':' (by decide) (("https").toList) (by decide) _]
    rfl
  have h2 : splitNetloc (("//www.youtube.com/v/").toList ++ id)
      = (("www.youtube.com").toList, ("/v/").toList ++ id) := rfl
  have h3 : splitFragment (("/v/").toList ++ id)
      = (("/v/").toList ++ id, []) := by
    unfold splitFragment
    rw [splitOnFirst_no hns]
  have h4 : splitQuery (("/v/").toList ++ id)
      = (("/v/").toList ++ id, []) := by
    unfold splitQuery
    rw [splitOnFirst_no hnq]
  unfold pyUrlsplit
  rw [h1]
  simp only [h2, h3, h4]

theorem parse_qsl_v (id : Str) (hne : id ≠ [])
    (hch : ∀ c ∈ id, goodIdChar c = true) :
    parse_qsl (("v=").toList ++ id) = [(("v").toList, id)] := by
  have hamp : ∀ c ∈ ("v=").toList ++ id, (c == '&') = false := by
    intro c hc
    rcases List.mem_append.mp hc with hc | hc
    · exact (by decide : ∀ c ∈ ("v=").toList, (c == '&') = false) c hc
    · exact goodIdChar_ne (hch c hc) '&' (by decide)
  have hie : id.isEmpty = false := by
    cases id with
    | nil => exact absurd rfl hne
    | cons a t => rfl
  have hpm : ∀ c ∈ id, (c == '+') = false ∧ (c == '%') = false := fun c hc =>
    ⟨goodIdChar_ne (hch c hc) '+' (by decide),
     goodIdChar_ne (hch c hc) '%' (by decide)⟩
  unfold parse_qsl
  rw [splitOnChar_none hamp]
  rw [show ("v=").toList ++ id = ("v").toList ++ '=' :: id from rfl]
  rw [List.filterMap_cons]
  rw [splitOnFirst_lit '=' (by decide) (("v").toList) (by decide) id]
  rw [show (("v").toList ++ '=' :: id).isEmpty = false from rfl]
  simp only [Bool.false_eq_true, if_false, hie, unquotePlus_id hpm, List.filterMap_nil]
  rfl

/-- C8: the four recognized URL shapes carrying the same video identifier
— short link, watch link, embed link and legacy `/v/` link — all make
`extract_video_id` return that identifier, so `build_episode_json`
derives the same `episode_id` from each. -/
theorem video_id_uniform (id : Str) (hne : id ≠ [])
    (hch : ∀ c ∈ id, goodIdChar c = true) :
    extract_video_id (("https://youtu.be/").toList ++ id) = some id
    ∧ extract_video_id (("https://www.youtube.com/watch?v=").toList ++ id) = some id
    ∧ extract_video_id (("https://www.youtube.com/embed/").toList ++ id) = some id
    ∧ extract_video_id (("https://www.youtube.com/v/").toList ++ id) = some id := by
  have hslash : ∀ c ∈ id, (c == '/') = false := fun c hc =>
    goodIdChar_ne (hch c hc) '/' (by decide)
  refine ⟨?_, ?_, ?_, ?_⟩
  · unfold extract_video_id
    rw [urlsplit_youtu id hch]
    rfl
  · unfold extract_video_id
    rw [urlsplit_watch id hch]
    show firstQueryVal (("v").toList) (("v=").toList ++ id) = some id
    unfold firstQueryVal
    rw [parse_qsl_v id hne hch]
    rfl
  · unfold extract_video_id
    rw [urlsplit_embed id hch]
    show (if pyHostname (("www.youtube.com").toList) = some (("youtu.be").toList) then
        some (List.drop 1 (("/embed/").toList ++ id))
      else if pyHostname (("www.youtube.com").toList) = some (("www.youtube.com").toList)
          ∨ pyHostname (("www.youtube.com").toList) = some (("youtube.com").toList) then
        if ("/embed/").toList ++ id = ("/watch").toList then
          firstQueryVal (("v").toList) []
        else if ("/embed/").toList <+: ("/embed/").toList ++ id then
          (splitOnChar '/' (("/embed/").toList ++ id)).get? 2
        else if ("/v/").toList <+: ("/embed/").toList ++ id then
          (splitOnChar '/' (("/embed/").toList ++ id)).get? 2
        else none
      else none) = some id
    rw [if_neg (by decide : ¬ (pyHostname (("www.youtube.com").toList)
        = some (("youtu.be").toList)))]
    rw [if_pos (show pyHostname (("www.youtube.com").toList)
          = some (("www.youtube.com").toList)
        ∨ pyHostname (("www.youtube.com").toList) = some (("youtube.com").toList)
      from Or.inl (by decide))]
    rw [if_neg (show ¬ (("/embed/").toList ++ id = ("/watch").toList) from by
      intro h
      have h2 := congrArg (fun l => l.get? 1) h
      simp at h2)]
    rw [if_pos (show ("/embed/").toList <+: ("/embed/").toList ++ id from ⟨id, rfl⟩)]
    rw [show ("/embed/").toList ++ id = [] ++ '/' :: (("embed").toList ++ '/' :: id)
      from rfl]
    rw [splitOnChar_sep '/' [] (by simp) _]
    rw [splitOnChar_sep '/' (("embed").toList) (by decide) id]
    rw [splitOnChar_none hslash]
    rfl
  · unfold extract_video_id
    rw [urlsplit_vpath id hch]
    show (if pyHostname (("www.youtube.com").toList) = some (("youtu.be").toList) then
        some (List.drop 1 (("/v/").toList ++ id))
      else if pyHostname (("www.youtube.com").toList) = some (("www.youtube.com").toList)
          ∨ pyHostname (("www.youtube.com").toList) = some (("youtube.com").toList) then
        if ("/v/").toList ++ id = ("/watch").toList then
          firstQueryVal (("v").toList) []
        else if ("/embed/").toList <+: ("/v/").toList ++ id then
          (splitOnChar '/' (("/v/").toList ++ id)).get? 2
        else if ("/v/").toList <+: ("/v/").toList ++ id then
          (splitOnChar '/' (("/v/").toList ++ id)).get? 2
        else none
      else none) = some id
    rw [if_neg (by decide : ¬ (pyHostname (("www.youtube.com").toList)
        = some (("youtu.be").toList)))]
    rw [if_pos (show pyHostname (("www.youtube.com").toList)
          = some (("www.youtube.com").toList)
        ∨ pyHostname (("www.youtube.com").toList) = some (("youtube.com").toList)
      from Or.inl (by decide))]
    rw [if_neg (show ¬ (("/v/").toList ++ id = ("/watch").toList) from by
      intro h
      have h2 := congrArg (fun l => l.get? 1) h
      simp at h2)]
    rw [if_neg (show ¬ (("/embed/").toList <+: ("/v/").toList ++ id) from by
      rintro ⟨t, ht⟩
      have h2 := congrArg (fun l => l.get? 1) ht
      simp at h2)]
    rw [if_pos (show ("/v/").toList <+: ("/v/").toList ++ id from ⟨id, rfl⟩)]
    rw [show ("/v/").toList ++ id = [] ++ '/' :: (("v").toList ++ '/' :: id) from rfl]
    rw [splitOnChar_sep '/' [] (by simp) _]
    rw [splitOnChar_sep '/' (("v").toList) (by decide) id]
    rw [splitOnChar_none hslash]
    rfl

/-- Witness of C8 at the identifier `dQw4w9WgXcQ`. -/
theorem video_id_uniform_wit :
    extract_video_id (("https://youtu.be/").toList ++ ("dQw4w9WgXcQ").toList)
      = some (("dQw4w9WgXcQ").toList)
    ∧ extract_video_id (("https://www.youtube.com/watch?v=").toList
        ++ ("dQw4w9WgXcQ").toList) = some (("dQw4w9WgXcQ").toList)
    ∧ extract_video_id (("https://www.youtube.com/embed/").toList
        ++ ("dQw4w9WgXcQ").toList) = some (("dQw4w9WgXcQ").toList)
    ∧ extract_video_id (("https://www.youtube.com/v/").toList
        ++ ("dQw4w9WgXcQ").toList) = some (("dQw4w9WgXcQ").toList) :=
  video_id_uniform (("dQw4w9WgXcQ").toList) (by decide) (by decide)
